import Mathlib

/-!
Verification of the pathman core (github.com/sfkleach/pathman).

The Go code is shallowly embedded: Go strings become `List Char`, the
platform path-list separator is an explicit `Char` parameter, and every
ambient input of the Go functions (the `$PATH` environment value, the
front/back folder paths, the configuration's managed-directory list, and
the filesystem facts gathered by `os.Stat` / `os.ReadDir` / `os.Readlink`)
is passed in as plain data.  The functions modelled here are
`GetAdjustedPath`, `CheckPathClashesWithDirs`, `addDirectory` (all in
pkg/folder/folder.go) and `findBrokenSymlinksInFolder` / `PerformCleanup`
(pkg/folder/clean.go).
-/

namespace Pathman

/-- Go strings are modelled as lists of characters. -/
abbrev GoStr := List Char

/-- A managed directory entry, mirroring `config.ManagedDirectory`
(pkg/config/config.go): an absolute path and a priority string, which the
code compares against the literal "front" (anything else means back). -/
structure ManagedDirectory where
  path : GoStr
  priority : GoStr
deriving DecidableEq

/-- The priority tag "front" that the Go code compares against. -/
def frontTag : GoStr := "front".data

/-- The priority tag "back". -/
def backTag : GoStr := "back".data

/-- Paths of the managed directories whose priority is "front", in input
order (GetAdjustedPath, folder.go lines 748-756). -/
def frontDirsOf (dirs : List ManagedDirectory) : List GoStr :=
  (dirs.filter (fun d => d.priority == frontTag)).map (fun d => d.path)

/-- Paths of the managed directories whose priority is not "front", in
input order (the else branch of the same loop). -/
def backDirsOf (dirs : List ManagedDirectory) : List GoStr :=
  (dirs.filter (fun d => !(d.priority == frontTag))).map (fun d => d.path)

/-- Membership in the `managedPaths` set built by GetAdjustedPath
(folder.go lines 769-774) and CheckPathClashesWithDirs (lines 505-510):
the front folder, the back folder, and every managed directory path. -/
def isManagedPath (front back : GoStr) (dirs : List ManagedDirectory) (p : GoStr) : Bool :=
  p == front || p == back || dirs.any (fun d => d.path == p)

/-- Go's strings.Split for a single-character separator.  Matches Go
semantics on every input, including `splitSep sep [] = [[]]`
(strings.Split "" yields one empty element). -/
def splitSep (sep : Char) : GoStr → List GoStr
  | [] => [[]]
  | c :: cs =>
    match splitSep sep cs with
    | [] => [[]]
    | r :: rs => if c = sep then [] :: r :: rs else (c :: r) :: rs

/-- Go's strings.Join for a single-character separator. -/
def joinSep (sep : Char) : List GoStr → GoStr
  | [] => []
  | [p] => p
  | p :: ps => p ++ sep :: joinSep sep ps

/-- The `cleanedParts` value computed by GetAdjustedPath (folder.go lines
776-783): split `$PATH` on the separator and drop every entry that exactly
matches a managed path. -/
def cleanedPartsOf (sep : Char) (front back : GoStr) (dirs : List ManagedDirectory)
    (pathEnv : GoStr) : List GoStr :=
  (splitSep sep pathEnv).filter (fun part => !(isManagedPath front back dirs part))

/-- GetAdjustedPath (folder.go lines 735-796).  The front/back folders,
the managed-directory list, the `$PATH` value and the separator are
explicit parameters.  The Go guard `if len(cleanedParts) > 0` before
appending `cleanedParts` is dropped here because appending an empty slice
is the identity. -/
def getAdjustedPath (sep : Char) (front back : GoStr) (dirs : List ManagedDirectory)
    (pathEnv : GoStr) : GoStr :=
  let frontDirs := frontDirsOf dirs
  let backDirs := backDirsOf dirs
  if pathEnv = [] then
    joinSep sep ([front] ++ frontDirs ++ backDirs ++ [back])
  else
    joinSep sep ([front] ++ frontDirs ++ cleanedPartsOf sep front back dirs pathEnv
      ++ backDirs ++ [back])

/-- A symlink listed by ListLongBoth (folder.go `SymlinkInfo`): name,
target, and the priority "front" or "back" naming the folder that
physically hosts it. -/
structure SymlinkInfo where
  name : GoStr
  target : GoStr
  priority : GoStr
deriving DecidableEq

/-- The local `ManagedExec` record of CheckPathClashesWithDirs
(folder.go lines 513-517). -/
structure ManagedExec where
  name : GoStr
  path : GoStr
  priority : GoStr
deriving DecidableEq

/-- Direction of a reported masking clash.  The Go code renders these as
the strings "<name> (masked by <dir>/<name>)" and
"<name> (masks <dir>/<name>)". -/
inductive ClashKind
  | maskedBy
  | masks
deriving DecidableEq

/-- One reported clash: the managed name, the foreign directory where a
same-named file was found, and the direction. -/
structure Clash where
  name : GoStr
  dir : GoStr
  kind : ClashKind
deriving DecidableEq

/-- The `managedExecs` list built by CheckPathClashesWithDirs (folder.go
lines 512-553).  `dirExecs d` stands for the executable file names that
the os.ReadDir scan finds in managed directory `d` (empty when the
directory is missing or unreadable).  Note that the Go code records
`frontFolder` as the Path of every symlink, regardless of its priority. -/
def managedExecsOf (front : GoStr) (symlinks : List SymlinkInfo)
    (dirs : List ManagedDirectory) (dirExecs : GoStr → List GoStr) : List ManagedExec :=
  symlinks.map (fun s => ⟨s.name, front, s.priority⟩)
    ++ dirs.flatMap (fun d => (dirExecs d.path).map (fun n => ⟨n, d.path, d.priority⟩))

/-- The inner scan of CheckPathClashesWithDirs (folder.go lines 573-592):
walk `pathDirs` from index `i`, skip managed paths, and return the index
and directory of the first entry containing a file named `name`.
`hasFile d n` models the `os.Stat(filepath.Join(d, n))` existence test. -/
def firstForeignHit (managed : GoStr → Bool) (hasFile : GoStr → GoStr → Bool)
    (name : GoStr) : List GoStr → Nat → Option (Nat × GoStr)
  | [], _ => none
  | d :: rest, i =>
    if managed d then firstForeignHit managed hasFile name rest (i + 1)
    else if hasFile d name then some (i, d)
    else firstForeignHit managed hasFile name rest (i + 1)

/-- The position search of CheckPathClashesWithDirs (folder.go lines
558-566): index of the first `pathDirs` entry equal to `p`, or none. -/
def firstIndexOf (p : GoStr) (l : List GoStr) : Option Nat :=
  l.findIdx? (fun d => d == p)

/-- The body of the outer loop of CheckPathClashesWithDirs (folder.go
lines 557-593) for one managed executable: skip it when its recorded Path
is not on `$PATH`; otherwise report at most one clash, against the first
non-managed directory containing the name, masked-by when that directory
comes earlier than the recorded position and masks otherwise. -/
def clashFor (pathDirs : List GoStr) (managed : GoStr → Bool)
    (hasFile : GoStr → GoStr → Bool) (e : ManagedExec) : Option Clash :=
  match firstIndexOf e.path pathDirs with
  | none => none
  | some pos =>
    match firstForeignHit managed hasFile e.name pathDirs 0 with
    | none => none
    | some (i, d) =>
      some ⟨e.name, d, if i < pos then ClashKind.maskedBy else ClashKind.masks⟩

/-- CheckPathClashesWithDirs (folder.go lines 488-596), with the
filesystem facts passed in as data: `pathDirs` is the split `$PATH`,
`symlinks` the ListLongBoth result, `dirExecs` the per-directory
executable listings, and `hasFile` the existence test used by the scan. -/
def checkPathClashesWithDirs (pathDirs : List GoStr) (front back : GoStr)
    (dirs : List ManagedDirectory) (symlinks : List SymlinkInfo)
    (dirExecs : GoStr → List GoStr) (hasFile : GoStr → GoStr → Bool) : List Clash :=
  (managedExecsOf front symlinks dirs dirExecs).filterMap
    (clashFor pathDirs (isManagedPath front back dirs) hasFile)

/-- Outcome of the `os.Stat(target)` call in findBrokenSymlinksInFolder:
the target exists, does not exist (os.IsNotExist), or stat failed for
another reason. -/
inductive StatResult
  | ok
  | notExist
  | otherErr
deriving DecidableEq

/-- One directory entry of a managed folder as seen by the scan in
findBrokenSymlinksInFolder: its name, whether the os.Lstat call fails
(such entries are skipped), whether it is a symlink, and the os.Readlink
result (`none` when reading the link fails). -/
structure FolderEntry where
  name : GoStr
  lstatFails : Bool
  isSymlink : Bool
  linkTarget : Option GoStr
deriving DecidableEq

/-- `folder.CleanupItem` (pkg/folder/clean.go lines 12-20). -/
structure CleanupItem where
  type : GoStr
  name : GoStr
  path : GoStr
  priority : GoStr
  reason : GoStr
  selected : Bool
  description : GoStr
deriving DecidableEq

/-- The item-type tag "symlink". -/
def symlinkType : GoStr := "symlink".data

/-- The item-type tag "directory". -/
def directoryType : GoStr := "directory".data

/-- Go's filepath.Join for a clean directory path and a bare entry name. -/
def joinPath (dir name : GoStr) : GoStr := dir ++ '/' :: name

/-- The reason string for an unreadable symlink (clean.go line 108). -/
def unreadableReason : GoStr := "Cannot read symlink target".data

/-- The reason string for a broken symlink, carrying the dangling target
(clean.go line 122). -/
def brokenReasonFor (target : GoStr) : GoStr :=
  "Target does not exist: ".data ++ target

/-- The description string for a broken symlink (clean.go line 124). -/
def brokenDescription (priority name target : GoStr) : GoStr :=
  '[' :: priority ++ "] ".data ++ name ++ " -> ".data ++ target ++ " (broken)".data

/-- The description string for an unreadable symlink (clean.go line 110). -/
def unreadableDescription (priority name : GoStr) : GoStr :=
  '[' :: priority ++ "] ".data ++ name ++ " (unreadable)".data

/-- The per-entry body of the loop in findBrokenSymlinksInFolder
(clean.go lines 92-128): entries whose Lstat fails are skipped,
non-symlinks are ignored, an unreadable symlink yields an unreadable item,
and a symlink whose target fails the stat with os.IsNotExist yields a
broken item whose reason records the dangling target. -/
def itemsForEntry (statTarget : GoStr → StatResult) (folderPath priority : GoStr)
    (e : FolderEntry) : List CleanupItem :=
  if e.lstatFails then []
  else if e.isSymlink then
    match e.linkTarget with
    | none =>
      [⟨symlinkType, e.name, joinPath folderPath e.name, priority,
        unreadableReason, true, unreadableDescription priority e.name⟩]
    | some target =>
      match statTarget target with
      | StatResult.notExist =>
        [⟨symlinkType, e.name, joinPath folderPath e.name, priority,
          brokenReasonFor target, true, brokenDescription priority e.name target⟩]
      | _ => []
  else []

/-- findBrokenSymlinksInFolder (clean.go lines 84-131), with the folder
listing and the stat outcomes for symlink targets passed in as data. -/
def findBrokenSymlinksInFolder (statTarget : GoStr → StatResult)
    (folderPath priority : GoStr) (entries : List FolderEntry) : List CleanupItem :=
  entries.flatMap (itemsForEntry statTarget folderPath priority)

/-- The priority string chosen by addDirectory (folder.go lines
1200-1203). -/
def priorityOfAtFront (atFront : Bool) : GoStr :=
  if atFront then frontTag else backTag

/-- The effect of addDirectory (folder.go lines 1194-1234) on the
managed-directory list: the first entry whose path matches has its
priority updated in place (or is left unchanged when the priority already
matches); when no entry matches, a new entry is appended. -/
def addDirectory (absPath : GoStr) (atFront : Bool) :
    List ManagedDirectory → List ManagedDirectory
  | [] => [⟨absPath, priorityOfAtFront atFront⟩]
  | d :: rest =>
    if d.path == absPath then
      if d.priority == priorityOfAtFront atFront then d :: rest
      else ⟨d.path, priorityOfAtFront atFront⟩ :: rest
    else d :: addDirectory absPath atFront rest

/-- Removal of the first config entry whose path matches (the inner loop
of PerformCleanup, clean.go lines 155-161). -/
def removeDirEntry (p : GoStr) : List ManagedDirectory → List ManagedDirectory
  | [] => []
  | d :: rest => if d.path == p then rest else d :: removeDirEntry p rest

/-- Result of PerformCleanup: the paths passed to os.Remove in call order
(including a final failing call), the name of the item whose removal
failed (PerformCleanup returns an error for it), and the final
managed-directory list. -/
structure CleanupResult where
  removeCalls : List GoStr
  failedOn : Option GoStr
  finalDirs : List ManagedDirectory
deriving DecidableEq

/-- PerformCleanup (clean.go lines 134-174), with os.Remove outcomes
supplied by `removeOk`.  Faithful to the Go control flow: unselected items
are skipped, a symlink item triggers os.Remove and a failure returns
immediately with an error (abandoning all remaining items), and a
directory item removes the first matching config entry. -/
def performCleanup (removeOk : GoStr → Bool) :
    List ManagedDirectory → List CleanupItem → CleanupResult
  | cfg, [] => ⟨[], none, cfg⟩
  | cfg, item :: rest =>
    if !item.selected then performCleanup removeOk cfg rest
    else if item.type == symlinkType then
      if removeOk item.path then
        let r := performCleanup removeOk cfg rest
        ⟨item.path :: r.removeCalls, r.failedOn, r.finalDirs⟩
      else ⟨[item.path], some item.name, cfg⟩
    else if item.type == directoryType then
      performCleanup removeOk (removeDirEntry item.path cfg) rest
    else performCleanup removeOk cfg rest

/-- splitSep always returns at least one chunk. -/
theorem splitSep_ne_nil (sep : Char) (s : GoStr) : splitSep sep s ≠ [] := by
  cases s with
  | nil => simp [splitSep]
  | cons c cs =>
    cases h : splitSep sep cs with
    | nil => simp [splitSep, h]
    | cons r rs =>
      simp only [splitSep, h]
      by_cases hc : c = sep <;> simp [hc]

/-- No chunk produced by splitSep contains the separator. -/
theorem not_mem_of_mem_splitSep (sep : Char) (s x : GoStr)
    (hx : x ∈ splitSep sep s) : sep ∉ x := by
  induction s generalizing x with
  | nil =>
    simp [splitSep] at hx
    simp [hx]
  | cons c cs ih =>
    cases h : splitSep sep cs with
    | nil => exact absurd h (splitSep_ne_nil sep cs)
    | cons r rs =>
      simp only [splitSep, h] at hx
      have hmem : ∀ y ∈ r :: rs, sep ∉ y := by
        intro y hy
        exact ih y (h ▸ hy)
      by_cases hc : c = sep
      · simp [hc] at hx
        rcases hx with hx | hx | hx
        · simp [hx]
        · exact hmem x (hx ▸ List.mem_cons_self r rs)
        · exact hmem x (List.mem_cons_of_mem r hx)
      · simp [hc] at hx
        rcases hx with hx | hx
        · subst hx
          intro hmem2
          rcases List.mem_cons.mp hmem2 with h1 | h1
          · exact hc h1.symm
          · exact hmem r (List.mem_cons_self r rs) h1
        · exact hmem x (List.mem_cons_of_mem r hx)

/-- A separator-free string splits into a single chunk. -/
theorem splitSep_of_not_mem (sep : Char) (p : GoStr) (hp : sep ∉ p) :
    splitSep sep p = [p] := by
  induction p with
  | nil => rfl
  | cons c cs ih =>
    have hc : ¬ c = sep := fun h => hp (by simp [h])
    have hcs : sep ∉ cs := fun h => hp (List.mem_cons_of_mem c h)
    simp [splitSep, ih hcs, hc]

/-- Splitting a separator-free chunk glued in front of a tail. -/
theorem splitSep_append (sep : Char) (p t : GoStr) (hp : sep ∉ p) :
    splitSep sep (p ++ sep :: t) = p :: splitSep sep t := by
  induction p with
  | nil =>
    cases h : splitSep sep t with
    | nil => exact absurd h (splitSep_ne_nil sep t)
    | cons r rs => simp [splitSep, h]
  | cons c cs ih =>
    have hc : ¬ c = sep := fun h => hp (by simp [h])
    have hcs : sep ∉ cs := fun h => hp (List.mem_cons_of_mem c h)
    simp [splitSep, ih hcs, hc]

/-- Splitting is a left inverse of joining, for a nonempty list of
separator-free chunks. -/
theorem splitSep_joinSep (sep : Char) (parts : List GoStr) (hne : parts ≠ [])
    (hsep : ∀ p ∈ parts, sep ∉ p) :
    splitSep sep (joinSep sep parts) = parts := by
  induction parts with
  | nil => exact absurd rfl hne
  | cons p ps ih =>
    cases ps with
    | nil => exact splitSep_of_not_mem sep p (hsep p (by simp))
    | cons q qs =>
      have h1 : joinSep sep (p :: q :: qs) = p ++ sep :: joinSep sep (q :: qs) := rfl
      rw [h1, splitSep_append sep p _ (hsep p (by simp))]
      rw [ih (by simp) (fun r hr => hsep r (List.mem_cons_of_mem p hr))]

/-- Joining two or more chunks never yields the empty string. -/
theorem joinSep_cons_ne_nil (sep : Char) (p : GoStr) (ps : List GoStr)
    (h : ps ≠ []) : joinSep sep (p :: ps) ≠ [] := by
  cases ps with
  | nil => exact absurd rfl h
  | cons q qs => simp [joinSep]

/-- Every path listed by frontDirsOf or backDirsOf is a managed-directory
path. -/
theorem mem_dirsOf_mem_path (dirs : List ManagedDirectory) (x : GoStr)
    (hx : x ∈ frontDirsOf dirs ∨ x ∈ backDirsOf dirs) :
    ∃ d ∈ dirs, d.path = x := by
  rcases hx with hx | hx
  · simp only [frontDirsOf, List.mem_map, List.mem_filter] at hx
    obtain ⟨d, ⟨hd1, _⟩, hd3⟩ := hx
    exact ⟨d, hd1, hd3⟩
  · simp only [backDirsOf, List.mem_map, List.mem_filter] at hx
    obtain ⟨d, ⟨hd1, _⟩, hd3⟩ := hx
    exact ⟨d, hd1, hd3⟩

/-- A managed-directory path is recognized by isManagedPath. -/
theorem isManagedPath_of_mem (front back : GoStr) (dirs : List ManagedDirectory)
    (d : ManagedDirectory) (hd : d ∈ dirs) :
    isManagedPath front back dirs d.path = true := by
  simp only [isManagedPath, Bool.or_eq_true, List.any_eq_true]
  exact Or.inr ⟨d, hd, by simp⟩

/-- Splitting the output of GetAdjustedPath recovers exactly the emitted
segments, in order: the front folder, the front-priority directories, the
residue of the incoming PATH (empty when the incoming PATH is empty), the
back-priority directories, and the back folder.  Requires the managed
locations to be free of the separator character. -/
theorem splitSep_getAdjustedPath (sep : Char) (front back : GoStr)
    (dirs : List ManagedDirectory) (pathEnv : GoStr)
    (hf : sep ∉ front) (hb : sep ∉ back)
    (hd : ∀ d ∈ dirs, sep ∉ d.path) :
    splitSep sep (getAdjustedPath sep front back dirs pathEnv)
      = [front] ++ frontDirsOf dirs
        ++ (if pathEnv = [] then [] else cleanedPartsOf sep front back dirs pathEnv)
        ++ backDirsOf dirs ++ [back] := by
  have hfd : ∀ x ∈ frontDirsOf dirs, sep ∉ x := by
    intro x hx
    obtain ⟨d, hd1, hd2⟩ := mem_dirsOf_mem_path dirs x (Or.inl hx)
    exact hd2 ▸ hd d hd1
  have hbd : ∀ x ∈ backDirsOf dirs, sep ∉ x := by
    intro x hx
    obtain ⟨d, hd1, hd2⟩ := mem_dirsOf_mem_path dirs x (Or.inr hx)
    exact hd2 ▸ hd d hd1
  have hcl : ∀ x ∈ cleanedPartsOf sep front back dirs pathEnv, sep ∉ x := by
    intro x hx
    exact not_mem_of_mem_splitSep sep pathEnv x (List.mem_of_mem_filter hx)
  by_cases hpe : pathEnv = []
  · have hmem2 : ∀ p ∈ [front] ++ frontDirsOf dirs ++ backDirsOf dirs ++ [back],
        sep ∉ p := by
      intro p hp
      simp only [List.mem_append, List.mem_singleton] at hp
      rcases hp with (((hp | hp) | hp) | hp)
      · exact hp ▸ hf
      · exact hfd p hp
      · exact hbd p hp
      · exact hp ▸ hb
    simp only [getAdjustedPath]
    rw [if_pos hpe, splitSep_joinSep sep _ (by simp) hmem2]
    simp [hpe]
  · have hmem2 : ∀ p ∈ [front] ++ frontDirsOf dirs
        ++ cleanedPartsOf sep front back dirs pathEnv ++ backDirsOf dirs ++ [back],
        sep ∉ p := by
      intro p hp
      simp only [List.mem_append, List.mem_singleton] at hp
      rcases hp with ((((hp | hp) | hp) | hp) | hp)
      · exact hp ▸ hf
      · exact hfd p hp
      · exact hcl p hp
      · exact hbd p hp
      · exact hp ▸ hb
    simp only [getAdjustedPath]
    rw [if_neg hpe, if_neg hpe, splitSep_joinSep sep _ (by simp) hmem2]

/-- GetAdjustedPath on an empty PATH takes the first branch (folder.go
lines 758-766). -/
theorem getAdjustedPath_nil (sep : Char) (front back : GoStr)
    (dirs : List ManagedDirectory) :
    getAdjustedPath sep front back dirs []
      = joinSep sep ([front] ++ frontDirsOf dirs ++ backDirsOf dirs ++ [back]) := by
  simp [getAdjustedPath]

/-- GetAdjustedPath on a nonempty PATH takes the general branch. -/
theorem getAdjustedPath_of_ne_nil (sep : Char) (front back : GoStr)
    (dirs : List ManagedDirectory) (pathEnv : GoStr) (h : pathEnv ≠ []) :
    getAdjustedPath sep front back dirs pathEnv
      = joinSep sep ([front] ++ frontDirsOf dirs
          ++ cleanedPartsOf sep front back dirs pathEnv ++ backDirsOf dirs ++ [back]) := by
  simp only [getAdjustedPath]
  rw [if_neg h]

/-- The composed PATH is never the empty string: it always contains at
least the front folder, a separator, and the back folder. -/
theorem getAdjustedPath_ne_nil (sep : Char) (front back : GoStr)
    (dirs : List ManagedDirectory) (pathEnv : GoStr) :
    getAdjustedPath sep front back dirs pathEnv ≠ [] := by
  by_cases hpe : pathEnv = []
  · rw [hpe, getAdjustedPath_nil]
    exact joinSep_cons_ne_nil sep front _ (by simp)
  · rw [getAdjustedPath_of_ne_nil sep front back dirs pathEnv hpe]
    exact joinSep_cons_ne_nil sep front _ (by simp)

/-- Re-splitting and re-filtering the composer's own output leaves exactly
the residue of the original PATH: every emitted managed location is
removed again and the residue survives the filter unchanged. -/
theorem cleanedParts_getAdjustedPath (sep : Char) (front back : GoStr)
    (dirs : List ManagedDirectory) (pathEnv : GoStr)
    (hf : sep ∉ front) (hb : sep ∉ back)
    (hd : ∀ d ∈ dirs, sep ∉ d.path) :
    cleanedPartsOf sep front back dirs (getAdjustedPath sep front back dirs pathEnv)
      = (if pathEnv = [] then [] else cleanedPartsOf sep front back dirs pathEnv) := by
  have hfront : isManagedPath front back dirs front = true := by
    simp [isManagedPath]
  have hback : isManagedPath front back dirs back = true := by
    simp [isManagedPath]
  have hsplit := splitSep_getAdjustedPath sep front back dirs pathEnv hf hb hd
  simp only [cleanedPartsOf] at *
  rw [hsplit]
  simp only [List.filter_append]
  have h1 : List.filter (fun part => !isManagedPath front back dirs part) [front]
      = [] := by simp [hfront]
  have h2 : List.filter (fun part => !isManagedPath front back dirs part) [back]
      = [] := by simp [hback]
  have h3 : List.filter (fun part => !isManagedPath front back dirs part)
      (frontDirsOf dirs) = [] := by
    rw [List.filter_eq_nil_iff]
    intro x hx
    obtain ⟨d, hd1, hd2⟩ := mem_dirsOf_mem_path dirs x (Or.inl hx)
    simp [hd2 ▸ isManagedPath_of_mem front back dirs d hd1]
  have h4 : List.filter (fun part => !isManagedPath front back dirs part)
      (backDirsOf dirs) = [] := by
    rw [List.filter_eq_nil_iff]
    intro x hx
    obtain ⟨d, hd1, hd2⟩ := mem_dirsOf_mem_path dirs x (Or.inr hx)
    simp [hd2 ▸ isManagedPath_of_mem front back dirs d hd1]
  have h5 : List.filter (fun part => !isManagedPath front back dirs part)
      (if pathEnv = [] then []
       else List.filter (fun part => !isManagedPath front back dirs part)
         (splitSep sep pathEnv))
      = (if pathEnv = [] then []
         else List.filter (fun part => !isManagedPath front back dirs part)
           (splitSep sep pathEnv)) := by
    by_cases hpe : pathEnv = []
    · simp [hpe]
    · simp only [if_neg hpe]
      rw [List.filter_filter]
      simp
  rw [h1, h2, h3, h4, h5]
  simp

/-- frontDirsOf on a cons steps through List.filter. -/
theorem frontDirsOf_cons (d : ManagedDirectory) (rest : List ManagedDirectory) :
    frontDirsOf (d :: rest)
      = if d.priority == frontTag then d.path :: frontDirsOf rest
        else frontDirsOf rest := by
  simp only [frontDirsOf, List.filter_cons]
  by_cases h : (d.priority == frontTag) = true <;> simp [h]

/-- backDirsOf on a cons steps through List.filter. -/
theorem backDirsOf_cons (d : ManagedDirectory) (rest : List ManagedDirectory) :
    backDirsOf (d :: rest)
      = if d.priority == frontTag then backDirsOf rest
        else d.path :: backDirsOf rest := by
  simp only [backDirsOf, List.filter_cons]
  by_cases h : (d.priority == frontTag) = true <;> simp [h]

/-- The two priority partitions together contain each path exactly as
often as the full managed-directory list does. -/
theorem count_dirsOf_eq (dirs : List ManagedDirectory) (x : GoStr) :
    (frontDirsOf dirs).count x + (backDirsOf dirs).count x
      = (dirs.map (fun d => d.path)).count x := by
  induction dirs with
  | nil => simp [frontDirsOf, backDirsOf]
  | cons d rest ih =>
    rw [frontDirsOf_cons, backDirsOf_cons, List.map_cons, List.count_cons]
    by_cases h : (d.priority == frontTag) = true
    · rw [if_pos h, if_pos h, List.count_cons]
      omega
    · rw [if_neg h, if_neg h, List.count_cons]
      omega

/-- A list without duplicates contains any element at most once. -/
theorem count_le_one_of_nodup (l : List GoStr) (hl : l.Nodup) (x : GoStr) :
    l.count x ≤ 1 := by
  induction l with
  | nil => simp
  | cons a as ih =>
    rcases List.nodup_cons.mp hl with ⟨ha, has⟩
    rw [List.count_cons]
    by_cases hx : x = a
    · subst hx
      have h0 : as.count x = 0 := List.count_eq_zero.mpr ha
      simp [h0]
    · have hxa : (a == x) = false := beq_eq_false_iff_ne.mpr (Ne.symm hx)
      rw [hxa]
      simpa using ih has

/-- C1: composition is idempotent.  For every well-formed input (front
folder, back folder and managed-directory paths free of the separator
character) and any currentPath, feeding the composer's output back in as
currentPath, with the same folders and managed-directory list, reproduces
exactly the same string. -/
theorem composePath_idempotent (sep : Char) (front back : GoStr)
    (dirs : List ManagedDirectory) (pathEnv : GoStr)
    (hf : sep ∉ front) (hb : sep ∉ back)
    (hd : ∀ d ∈ dirs, sep ∉ d.path) :
    getAdjustedPath sep front back dirs (getAdjustedPath sep front back dirs pathEnv)
      = getAdjustedPath sep front back dirs pathEnv := by
  rw [getAdjustedPath_of_ne_nil sep front back dirs _
    (getAdjustedPath_ne_nil sep front back dirs pathEnv)]
  rw [cleanedParts_getAdjustedPath sep front back dirs pathEnv hf hb hd]
  by_cases hpe : pathEnv = []
  · rw [if_pos hpe, hpe, getAdjustedPath_nil]
    simp
  · rw [if_neg hpe, getAdjustedPath_of_ne_nil sep front back dirs pathEnv hpe]

/-- Witness for composePath_idempotent at a concrete input. -/
theorem composePath_idempotent_witness :
    getAdjustedPath ':' "/mf".data "/mb".data [⟨"/cargo".data, frontTag⟩]
        (getAdjustedPath ':' "/mf".data "/mb".data [⟨"/cargo".data, frontTag⟩]
          "/usr/bin:/mf:/bin".data)
      = getAdjustedPath ':' "/mf".data "/mb".data [⟨"/cargo".data, frontTag⟩]
          "/usr/bin:/mf:/bin".data :=
  composePath_idempotent ':' "/mf".data "/mb".data [⟨"/cargo".data, frontTag⟩]
    "/usr/bin:/mf:/bin".data (by decide) (by decide) (by decide)

/-- C6: composing with an empty currentPath and an empty managed-directory
list yields exactly the front folder, one separator, and the back folder. -/
theorem composePath_empty_inputs (sep : Char) (front back : GoStr) :
    getAdjustedPath sep front back [] [] = front ++ sep :: back := by
  rw [getAdjustedPath_nil]
  simp [frontDirsOf, backDirsOf, joinSep]

/-- C5: the composed PATH splits into exactly: the front folder, then the
front-priority managed directories in input order, then the residue of
currentPath, then the remaining (back-priority) managed directories in
input order, then the back folder.  List.filter preserves relative input
order, so directories sharing a priority keep their relative order. -/
theorem composePath_order (sep : Char) (front back : GoStr)
    (dirs : List ManagedDirectory) (pathEnv : GoStr)
    (hf : sep ∉ front) (hb : sep ∉ back)
    (hd : ∀ d ∈ dirs, sep ∉ d.path) :
    splitSep sep (getAdjustedPath sep front back dirs pathEnv)
      = [front]
        ++ (dirs.filter (fun d => d.priority == frontTag)).map (fun d => d.path)
        ++ (if pathEnv = [] then []
            else (splitSep sep pathEnv).filter
              (fun part => !(isManagedPath front back dirs part)))
        ++ (dirs.filter (fun d => !(d.priority == frontTag))).map (fun d => d.path)
        ++ [back] := by
  rw [splitSep_getAdjustedPath sep front back dirs pathEnv hf hb hd]
  rfl

/-- Witness for composePath_order at a concrete input with mixed
priorities. -/
theorem composePath_order_witness :
    splitSep ':' (getAdjustedPath ':' "/mf".data "/mb".data
        [⟨"/c1".data, frontTag⟩, ⟨"/c2".data, backTag⟩, ⟨"/c3".data, frontTag⟩]
        "/usr/bin:/c2:/bin".data)
      = [" ".data].tail ++ ["/mf".data, "/c1".data, "/c3".data, "/usr/bin".data,
          "/bin".data, "/c2".data, "/mb".data] := by
  rw [composePath_order ':' "/mf".data "/mb".data
    [⟨"/c1".data, frontTag⟩, ⟨"/c2".data, backTag⟩, ⟨"/c3".data, frontTag⟩]
    "/usr/bin:/c2:/bin".data (by decide) (by decide) (by decide)]
  decide

/-- C4 as stated is false: it quantifies over every managed-directory
list, and registering the front folder itself as a managed directory makes
the composed PATH contain that path twice. -/
theorem composePath_duplicate_cex :
    1 < (splitSep ':' (getAdjustedPath ':' "/a".data "/b".data
        [⟨"/a".data, frontTag⟩] [])).count "/a".data := by decide

/-- C4 amended: provided the front folder, the back folder and the managed
directory paths are pairwise distinct (and separator-free), the composed
PATH, when split on the separator, contains the front folder at most once,
the back folder at most once, and each managed-directory path at most
once. -/
theorem composePath_no_duplicates (sep : Char) (front back : GoStr)
    (dirs : List ManagedDirectory) (pathEnv : GoStr)
    (hf : sep ∉ front) (hb : sep ∉ back)
    (hd : ∀ d ∈ dirs, sep ∉ d.path)
    (hfb : front ≠ back)
    (hfp : front ∉ dirs.map (fun d => d.path))
    (hbp : back ∉ dirs.map (fun d => d.path))
    (hpnd : (dirs.map (fun d => d.path)).Nodup) :
    (splitSep sep (getAdjustedPath sep front back dirs pathEnv)).count front ≤ 1
    ∧ (splitSep sep (getAdjustedPath sep front back dirs pathEnv)).count back ≤ 1
    ∧ ∀ d ∈ dirs,
        (splitSep sep (getAdjustedPath sep front back dirs pathEnv)).count d.path
          ≤ 1 := by
  have hsplit := splitSep_getAdjustedPath sep front back dirs pathEnv hf hb hd
  have hCzero : ∀ x, isManagedPath front back dirs x = true →
      List.count x (if pathEnv = [] then []
        else cleanedPartsOf sep front back dirs pathEnv) = 0 := by
    intro x hx
    rw [List.count_eq_zero]
    intro hmem
    by_cases hpe : pathEnv = []
    · simp [hpe] at hmem
    · rw [if_neg hpe] at hmem
      have h2 := List.of_mem_filter hmem
      simp [hx] at h2
  have hfdzero : ∀ x, x ∉ dirs.map (fun d => d.path) →
      List.count x (frontDirsOf dirs) = 0 ∧ List.count x (backDirsOf dirs) = 0 := by
    intro x hx
    constructor
    · rw [List.count_eq_zero]
      intro hmem
      obtain ⟨d, hd1, hd2⟩ := mem_dirsOf_mem_path dirs x (Or.inl hmem)
      exact hx (List.mem_map.mpr ⟨d, hd1, hd2⟩)
    · rw [List.count_eq_zero]
      intro hmem
      obtain ⟨d, hd1, hd2⟩ := mem_dirsOf_mem_path dirs x (Or.inr hmem)
      exact hx (List.mem_map.mpr ⟨d, hd1, hd2⟩)
  rw [hsplit]
  simp only [List.count_append]
  refine ⟨?_, ?_, ?_⟩
  · have c1 : List.count front ([front] : List GoStr) = 1 := by simp
    have c2 := (hfdzero front hfp).1
    have c3 := (hfdzero front hfp).2
    have c4 : List.count front ([back] : List GoStr) = 0 := by
      rw [List.count_eq_zero]
      simp [hfb]
    have c5 := hCzero front (by simp [isManagedPath])
    omega
  · have c1 : List.count back ([front] : List GoStr) = 0 := by
      rw [List.count_eq_zero]
      simp [Ne.symm hfb]
    have c2 := (hfdzero back hbp).1
    have c3 := (hfdzero back hbp).2
    have c4 : List.count back ([back] : List GoStr) = 1 := by simp
    have c5 := hCzero back (by simp [isManagedPath])
    omega
  · intro d hdm
    have hdp : d.path ∈ dirs.map (fun d => d.path) := List.mem_map.mpr ⟨d, hdm, rfl⟩
    have c1 : List.count d.path ([front] : List GoStr) = 0 := by
      rw [List.count_eq_zero]
      simp only [List.mem_singleton]
      intro h
      exact hfp (h ▸ hdp)
    have c4 : List.count d.path ([back] : List GoStr) = 0 := by
      rw [List.count_eq_zero]
      simp only [List.mem_singleton]
      intro h
      exact hbp (h ▸ hdp)
    have c5 := hCzero d.path (isManagedPath_of_mem front back dirs d hdm)
    have c23 : List.count d.path (frontDirsOf dirs)
        + List.count d.path (backDirsOf dirs) ≤ 1 := by
      rw [count_dirsOf_eq dirs d.path]
      exact count_le_one_of_nodup _ hpnd d.path
    omega

/-- Witness for composePath_no_duplicates at a concrete input. -/
theorem composePath_no_duplicates_witness :
    (splitSep ':' (getAdjustedPath ':' "/mf".data "/mb".data
        [⟨"/c1".data, backTag⟩] "/usr/bin:/mf:/c1".data)).count "/mf".data ≤ 1
    ∧ (splitSep ':' (getAdjustedPath ':' "/mf".data "/mb".data
        [⟨"/c1".data, backTag⟩] "/usr/bin:/mf:/c1".data)).count "/mb".data ≤ 1
    ∧ ∀ d ∈ [(⟨"/c1".data, backTag⟩ : ManagedDirectory)],
        (splitSep ':' (getAdjustedPath ':' "/mf".data "/mb".data
          [⟨"/c1".data, backTag⟩] "/usr/bin:/mf:/c1".data)).count d.path ≤ 1 :=
  composePath_no_duplicates ':' "/mf".data "/mb".data [⟨"/c1".data, backTag⟩]
    "/usr/bin:/mf:/c1".data (by decide) (by decide) (by decide) (by decide)
    (by decide) (by decide) (by decide)

/-- Filtering by a predicate the element satisfies keeps its count. -/
theorem count_filter_of_pos (q : GoStr → Bool) (l : List GoStr) (x : GoStr)
    (hx : q x = true) : (l.filter q).count x = l.count x := by
  induction l with
  | nil => rfl
  | cons a as ih =>
    rw [List.filter_cons, List.count_cons]
    by_cases ha : q a = true
    · rw [if_pos ha, List.count_cons, ih]
    · rw [if_neg ha, ih]
      have hax : (a == x) = false := by
        refine beq_eq_false_iff_ne.mpr ?_
        intro h
        exact ha (h ▸ hx)
      rw [hax]
      simp

/-- C10: with a nonempty currentPath, and the empty string not being a
managed location, empty path-list elements of currentPath are kept
verbatim by the composer: the output, split on the separator, contains
exactly as many empty elements as the input does, because the filter
removes managed locations only. -/
theorem composePath_keeps_empty_entries (sep : Char) (front back : GoStr)
    (dirs : List ManagedDirectory) (pathEnv : GoStr)
    (hf : sep ∉ front) (hb : sep ∉ back)
    (hd : ∀ d ∈ dirs, sep ∉ d.path)
    (hpe : pathEnv ≠ [])
    (hem : isManagedPath front back dirs [] = false) :
    (splitSep sep (getAdjustedPath sep front back dirs pathEnv)).count []
      = (splitSep sep pathEnv).count [] := by
  have hemp := hem
  simp only [isManagedPath, Bool.or_eq_false_iff, beq_eq_false_iff_ne,
    List.any_eq_false] at hemp
  obtain ⟨⟨hnf, hnb⟩, hnd2⟩ := hemp
  rw [splitSep_getAdjustedPath sep front back dirs pathEnv hf hb hd]
  simp only [List.count_append]
  have c1 : List.count ([] : GoStr) [front] = 0 := by
    rw [List.count_eq_zero]
    simp only [List.mem_singleton]
    intro h
    exact hnf h
  have c4 : List.count ([] : GoStr) [back] = 0 := by
    rw [List.count_eq_zero]
    simp only [List.mem_singleton]
    intro h
    exact hnb h
  have c2 : List.count ([] : GoStr) (frontDirsOf dirs) = 0 := by
    rw [List.count_eq_zero]
    intro hmem
    obtain ⟨d, hd1, hd2⟩ := mem_dirsOf_mem_path dirs [] (Or.inl hmem)
    have h9 : d.path ≠ [] := by simpa using hnd2 d hd1
    exact h9 hd2
  have c3 : List.count ([] : GoStr) (backDirsOf dirs) = 0 := by
    rw [List.count_eq_zero]
    intro hmem
    obtain ⟨d, hd1, hd2⟩ := mem_dirsOf_mem_path dirs [] (Or.inr hmem)
    have h9 : d.path ≠ [] := by simpa using hnd2 d hd1
    exact h9 hd2
  have c5 : List.count ([] : GoStr)
      (if pathEnv = [] then [] else cleanedPartsOf sep front back dirs pathEnv)
      = (splitSep sep pathEnv).count [] := by
    rw [if_neg hpe, cleanedPartsOf]
    exact count_filter_of_pos _ (splitSep sep pathEnv) [] (by simp [hem])
  rw [c1, c2, c3, c4, c5]
  omega

/-- Witness for composePath_keeps_empty_entries at a concrete input with
an empty middle element. -/
theorem composePath_keeps_empty_entries_witness :
    (splitSep ':' (getAdjustedPath ':' "/mf".data "/mb".data [] "/a::/b".data)).count []
      = (splitSep ':' "/a::/b".data).count [] :=
  composePath_keeps_empty_entries ':' "/mf".data "/mb".data [] "/a::/b".data
    (by decide) (by decide) (by decide) (by decide) (by decide)

/-- Characterization of firstForeignHit: a hit names the first
non-managed directory containing the file, at its absolute index
(the accumulator `k` is the index of the head of `l`). -/
theorem firstForeignHit_spec (managed : GoStr → Bool)
    (hasFile : GoStr → GoStr → Bool) (name : GoStr) :
    ∀ (l : List GoStr) (k i : Nat) (d : GoStr),
      firstForeignHit managed hasFile name l k = some (i, d) →
      k ≤ i ∧ l[i - k]? = some d ∧ managed d = false ∧ hasFile d name = true ∧
        ∀ j, k ≤ j → j < i → ∀ x, l[j - k]? = some x →
          managed x = true ∨ hasFile x name = false := by
  intro l
  induction l with
  | nil =>
    intro k i d h
    simp [firstForeignHit] at h
  | cons d0 rest ih =>
    intro k i d h
    simp only [firstForeignHit] at h
    by_cases hm : managed d0 = true
    · rw [if_pos hm] at h
      obtain ⟨hk, hget, hmd, hhf, hfirst⟩ := ih (k + 1) i d h
      refine ⟨by omega, ?_, hmd, hhf, ?_⟩
      · have hik : i - k = (i - (k + 1)) + 1 := by omega
        rw [hik, List.getElem?_cons_succ]
        exact hget
      · intro j hkj hji x hx
        by_cases hjk : j = k
        · subst hjk
          rw [Nat.sub_self, List.getElem?_cons_zero] at hx
          cases hx
          exact Or.inl hm
        · have hj1 : k + 1 ≤ j := by omega
          have hjk2 : j - k = (j - (k + 1)) + 1 := by omega
          rw [hjk2, List.getElem?_cons_succ] at hx
          exact hfirst j hj1 hji x hx
    · rw [if_neg hm] at h
      by_cases hh : hasFile d0 name = true
      · rw [if_pos hh] at h
        have h2 : k = i ∧ d0 = d := by simpa using h
        obtain ⟨rfl, rfl⟩ := h2
        refine ⟨Nat.le_refl k, ?_, by simpa using hm, hh, ?_⟩
        · rw [Nat.sub_self, List.getElem?_cons_zero]
        · intro j hkj hji x hx
          exact absurd hji (by omega)
      · rw [if_neg hh] at h
        obtain ⟨hk, hget, hmd, hhf, hfirst⟩ := ih (k + 1) i d h
        refine ⟨by omega, ?_, hmd, hhf, ?_⟩
        · have hik : i - k = (i - (k + 1)) + 1 := by omega
          rw [hik, List.getElem?_cons_succ]
          exact hget
        · intro j hkj hji x hx
          by_cases hjk : j = k
          · subst hjk
            rw [Nat.sub_self, List.getElem?_cons_zero] at hx
            cases hx
            exact Or.inr (by simpa using hh)
          · have hj1 : k + 1 ≤ j := by omega
            have hjk2 : j - k = (j - (k + 1)) + 1 := by omega
            rw [hjk2, List.getElem?_cons_succ] at hx
            exact hfirst j hj1 hji x hx

/-- C2 evaluated at its failing input: a symlink with priority "back" is
physically hosted in the back folder, which sits at index 2 of pathDirs,
after the foreign directory at index 1, so by the claim the clash should
be reported as masked-by.  The code instead records the front folder
(index 0) as the Path of every symlink and reports "masks". -/
theorem clash_back_symlink_eval :
    checkPathClashesWithDirs
        ["/f".data, "/u".data, "/bk".data] "/f".data "/bk".data []
        [⟨"foo".data, "/t/foo".data, backTag⟩]
        (fun _ => [])
        (fun d n => d == "/u".data && n == "foo".data)
      = [⟨"foo".data, "/u".data, ClashKind.masks⟩] := by decide

/-- C7 as stated is false: when the same name is managed through two
entries (here a front-folder symlink named foo and a managed directory
containing an executable foo), the detector reports one clash per entry,
hence two clashes for the single name foo. -/
theorem clash_two_reports_cex :
    ((checkPathClashesWithDirs
        ["/f".data, "/d".data, "/u".data] "/f".data "/bk".data
        [⟨"/d".data, frontTag⟩]
        [⟨"foo".data, "/t/foo".data, frontTag⟩]
        (fun p => if p == "/d".data then ["foo".data] else [])
        (fun d n => d == "/u".data && n == "foo".data)).filter
      (fun c => c.name == "foo".data)).length = 2 := by decide

/-- C7 amended: the detector reports at most one clash per managed
executable entry (not per name), and when an entry yields a clash its
counterpart directory is the first entry of pathDirs, scanning from the
start, that is not a known managed location and contains a file with the
entry's name; no earlier non-managed directory contains that name. -/
theorem clash_at_most_one_per_entry (pathDirs : List GoStr) (front back : GoStr)
    (dirs : List ManagedDirectory) (symlinks : List SymlinkInfo)
    (dirExecs : GoStr → List GoStr) (hasFile : GoStr → GoStr → Bool)
    (e : ManagedExec) (c : Clash)
    (h : clashFor pathDirs (isManagedPath front back dirs) hasFile e = some c) :
    (checkPathClashesWithDirs pathDirs front back dirs symlinks dirExecs hasFile).length
        ≤ (managedExecsOf front symlinks dirs dirExecs).length
    ∧ c.name = e.name
    ∧ ∃ i : Nat, pathDirs[i]? = some c.dir
        ∧ isManagedPath front back dirs c.dir = false
        ∧ hasFile c.dir e.name = true
        ∧ ∀ j : Nat, j < i → ∀ x, pathDirs[j]? = some x →
            isManagedPath front back dirs x = true ∨ hasFile x e.name = false := by
  refine ⟨List.length_filterMap_le _ _, ?_⟩
  simp only [clashFor] at h
  cases hidx : firstIndexOf e.path pathDirs with
  | none =>
    rw [hidx] at h
    simp at h
  | some pos =>
    rw [hidx] at h
    cases hffh : firstForeignHit (isManagedPath front back dirs) hasFile e.name
        pathDirs 0 with
    | none =>
      rw [hffh] at h
      simp at h
    | some pr =>
      obtain ⟨i, d⟩ := pr
      rw [hffh] at h
      have hc : c = ⟨e.name, d, if i < pos then ClashKind.maskedBy
          else ClashKind.masks⟩ := by
        have h2 := h
        simp only [Option.some.injEq] at h2
        exact h2.symm
      obtain ⟨hk, hget, hmd, hhf, hfirst⟩ :=
        firstForeignHit_spec (isManagedPath front back dirs) hasFile e.name
          pathDirs 0 i d hffh
      subst hc
      refine ⟨rfl, i, ?_, hmd, hhf, ?_⟩
      · simpa using hget
      · intro j hji x hx
        have hx0 : pathDirs[j - 0]? = some x := by simpa using hx
        exact hfirst j (Nat.zero_le j) hji x hx0

/-- Witness for clash_at_most_one_per_entry at a concrete input. -/
theorem clash_at_most_one_per_entry_witness :
    (checkPathClashesWithDirs ["/f".data, "/u".data] "/f".data "/bk".data []
        [⟨"foo".data, "/t/foo".data, frontTag⟩] (fun _ => [])
        (fun d n => d == "/u".data && n == "foo".data)).length
      ≤ (managedExecsOf "/f".data [⟨"foo".data, "/t/foo".data, frontTag⟩] []
          (fun _ => [])).length
    ∧ (⟨"foo".data, "/u".data, ClashKind.masks⟩ : Clash).name = "foo".data
    ∧ ∃ i : Nat, (["/f".data, "/u".data] : List GoStr)[i]? = some "/u".data
        ∧ isManagedPath "/f".data "/bk".data [] "/u".data = false
        ∧ (fun (d n : GoStr) => d == "/u".data && n == "foo".data) "/u".data "foo".data
            = true
        ∧ ∀ j : Nat, j < i → ∀ x, (["/f".data, "/u".data] : List GoStr)[j]? = some x →
            isManagedPath "/f".data "/bk".data [] x = true
            ∨ (fun (d n : GoStr) => d == "/u".data && n == "foo".data) x "foo".data
                = false :=
  clash_at_most_one_per_entry ["/f".data, "/u".data] "/f".data "/bk".data []
    [⟨"foo".data, "/t/foo".data, frontTag⟩] (fun _ => [])
    (fun d n => d == "/u".data && n == "foo".data)
    ⟨"foo".data, "/f".data, frontTag⟩ ⟨"foo".data, "/u".data, ClashKind.masks⟩
    (by decide)

/-- C9: the scan is the concatenation of the per-entry results; a
non-symlink entry contributes no candidate; and a readable symlink with
target `t` contributes exactly one broken-symlink candidate, with the
dangling target recorded in its reason, precisely when the target does
not exist, and nothing otherwise. -/
theorem findBrokenSymlinks_spec (statTarget : GoStr → StatResult)
    (folderPath priority : GoStr) (entries : List FolderEntry) :
    findBrokenSymlinksInFolder statTarget folderPath priority entries
        = entries.flatMap (itemsForEntry statTarget folderPath priority)
    ∧ (∀ e ∈ entries, e.isSymlink = false →
        itemsForEntry statTarget folderPath priority e = [])
    ∧ (∀ e ∈ entries, ∀ t, e.lstatFails = false → e.isSymlink = true →
        e.linkTarget = some t →
        itemsForEntry statTarget folderPath priority e
          = if statTarget t = StatResult.notExist
            then [⟨symlinkType, e.name, joinPath folderPath e.name, priority,
                   brokenReasonFor t, true, brokenDescription priority e.name t⟩]
            else []) := by
  refine ⟨rfl, ?_, ?_⟩
  · intro e he hsym
    by_cases hl : e.lstatFails = true
    · simp [itemsForEntry, hl]
    · have hl2 : e.lstatFails = false := by simpa using hl
      simp [itemsForEntry, hl2, hsym]
  · intro e he t hl hs ht
    simp only [itemsForEntry, hl, hs, ht, Bool.false_eq_true, if_false, if_true,
      ite_false, ite_true]
    cases hst : statTarget t <;> simp [hst]

/-- Concrete stat function for the cleanup-scanner witness: only the
target "/gone" is missing. -/
def statC : GoStr → StatResult :=
  fun t => if t == "/gone".data then StatResult.notExist else StatResult.ok

/-- Concrete folder entry for the cleanup-scanner witness: a readable
symlink named a pointing at the missing target "/gone". -/
def entryC : FolderEntry := ⟨"a".data, false, true, some "/gone".data⟩

/-- Witness for findBrokenSymlinks_spec: the broken-candidate clause
applied at a concrete symlink whose target is missing. -/
theorem findBrokenSymlinks_spec_witness :
    itemsForEntry statC "/mf".data frontTag entryC
      = [⟨symlinkType, "a".data, joinPath "/mf".data "a".data, frontTag,
          brokenReasonFor "/gone".data, true,
          brokenDescription frontTag "a".data "/gone".data⟩] := by
  have h := (findBrokenSymlinks_spec statC "/mf".data frontTag [entryC]).2.2
    entryC (by simp) "/gone".data rfl rfl rfl
  rw [h, if_pos (by decide)]
  rfl

/-- Cleanup item used in the C3 analysis: the selected symlink whose
removal will fail. -/
def cexItemA : CleanupItem :=
  ⟨symlinkType, "a".data, "/mf/a".data, frontTag, [], true, []⟩

/-- Cleanup item used in the C3 analysis: a second selected symlink whose
removal would succeed. -/
def cexItemB : CleanupItem :=
  ⟨symlinkType, "b".data, "/mf/b".data, frontTag, [], true, []⟩

/-- C3 as stated is false: when removing the first selected symlink
fails, PerformCleanup returns an error immediately; the second selected
item is never attempted (os.Remove is never called on its path) and no
per-item success/failure summary is produced. -/
theorem performCleanup_aborts_cex :
    (performCleanup (fun p => !(p == "/mf/a".data)) [] [cexItemA, cexItemB]).failedOn
        = some "a".data
    ∧ "/mf/b".data ∉
        (performCleanup (fun p => !(p == "/mf/a".data)) [] [cexItemA, cexItemB]).removeCalls
      := by decide

/-- C3 amended: PerformCleanup attempts the selected items in order and
aborts at the first failed symlink removal, returning an error naming
that item; the remaining items are not attempted, whatever they are, and
the configuration is left as it was. -/
theorem performCleanup_aborts (removeOk : GoStr → Bool)
    (cfg : List ManagedDirectory) (item : CleanupItem) (rest : List CleanupItem)
    (hsel : item.selected = true) (htype : item.type = symlinkType)
    (hfail : removeOk item.path = false) :
    performCleanup removeOk cfg (item :: rest)
      = ⟨[item.path], some item.name, cfg⟩ := by
  simp [performCleanup, hsel, htype, hfail]

/-- Witness for performCleanup_aborts at a concrete input. -/
theorem performCleanup_aborts_witness :
    performCleanup (fun p => !(p == "/mf/a".data)) [] [cexItemA, cexItemB]
      = ⟨["/mf/a".data], some "a".data, []⟩ :=
  performCleanup_aborts (fun p => !(p == "/mf/a".data)) [] cexItemA [cexItemB]
    (by decide) (by decide) (by decide)

/-- The list of paths after addDirectory: unchanged when the path is
already present (only the matching entry's priority may change), and
extended by the new path at the end otherwise. -/
theorem addDirectory_paths (absPath : GoStr) (atFront : Bool)
    (dirs : List ManagedDirectory) :
    (addDirectory absPath atFront dirs).map (fun d => d.path)
      = if absPath ∈ dirs.map (fun d => d.path)
        then dirs.map (fun d => d.path)
        else dirs.map (fun d => d.path) ++ [absPath] := by
  induction dirs with
  | nil => simp [addDirectory]
  | cons d rest ih =>
    simp only [addDirectory]
    by_cases hp : (d.path == absPath) = true
    · rw [if_pos hp]
      have hpe : d.path = absPath := by simpa using hp
      have hmem : absPath ∈ (d :: rest).map (fun d => d.path) := by
        simp [hpe.symm]
      rw [if_pos hmem]
      by_cases hpr : (d.priority == priorityOfAtFront atFront) = true
      · rw [if_pos hpr]
      · rw [if_neg hpr]
        simp
    · rw [if_neg hp]
      have hpe : d.path ≠ absPath := by simpa using hp
      rw [List.map_cons, ih]
      by_cases hmem : absPath ∈ rest.map (fun d => d.path)
      · rw [if_pos hmem, if_pos (by simp [hmem])]
        simp
      · have hno : absPath ∉ (d :: rest).map (fun d => d.path) := by
          simp only [List.map_cons, List.mem_cons]
          rintro (h | h)
          · exact hpe h.symm
          · exact hmem h
        rw [if_neg hmem, if_neg hno]
        simp

/-- After addDirectory, the list contains an entry for the added path
carrying the requested priority. -/
theorem addDirectory_mem (absPath : GoStr) (atFront : Bool)
    (dirs : List ManagedDirectory) :
    (⟨absPath, priorityOfAtFront atFront⟩ : ManagedDirectory)
      ∈ addDirectory absPath atFront dirs := by
  induction dirs with
  | nil => simp [addDirectory]
  | cons d rest ih =>
    simp only [addDirectory]
    by_cases hp : (d.path == absPath) = true
    · rw [if_pos hp]
      have hpe : d.path = absPath := by simpa using hp
      by_cases hpr : (d.priority == priorityOfAtFront atFront) = true
      · rw [if_pos hpr]
        have hd : d = ⟨absPath, priorityOfAtFront atFront⟩ := by
          have hpre : d.priority = priorityOfAtFront atFront := by simpa using hpr
          cases d
          simp_all
        rw [hd]
        exact List.mem_cons_self _ _
      · rw [if_neg hpr]
        rw [hpe]
        exact List.mem_cons_self _ _
    · rw [if_neg hp]
      exact List.mem_cons_of_mem d ih

/-- C8: addDirectory preserves the invariant that the managed-directory
list holds at most one entry per distinct absolute path; an already
present path leaves the set of stored paths unchanged (the matching
entry's priority is updated in place) while a new path is appended once,
and the resulting list carries the added path with the requested
priority. -/
theorem addDirectory_invariant (absPath : GoStr) (atFront : Bool)
    (dirs : List ManagedDirectory)
    (hnd : (dirs.map (fun d => d.path)).Nodup) :
    ((addDirectory absPath atFront dirs).map (fun d => d.path)).Nodup
    ∧ ((addDirectory absPath atFront dirs).map (fun d => d.path)
        = if absPath ∈ dirs.map (fun d => d.path)
          then dirs.map (fun d => d.path)
          else dirs.map (fun d => d.path) ++ [absPath])
    ∧ (⟨absPath, priorityOfAtFront atFront⟩ : ManagedDirectory)
        ∈ addDirectory absPath atFront dirs := by
  refine ⟨?_, addDirectory_paths absPath atFront dirs,
    addDirectory_mem absPath atFront dirs⟩
  rw [addDirectory_paths absPath atFront dirs]
  by_cases hmem : absPath ∈ dirs.map (fun d => d.path)
  · rw [if_pos hmem]
    exact hnd
  · rw [if_neg hmem]
    simp [List.nodup_append, hnd, hmem]

/-- Witness for addDirectory_invariant at a concrete input: re-adding an
existing path with the other priority keeps a single entry for it. -/
theorem addDirectory_invariant_witness :
    ((addDirectory "/x".data false [⟨"/x".data, frontTag⟩]).map
        (fun d => d.path)).Nodup
    ∧ ((addDirectory "/x".data false [⟨"/x".data, frontTag⟩]).map
          (fun d => d.path)
        = if "/x".data ∈ [(⟨"/x".data, frontTag⟩ : ManagedDirectory)].map
              (fun d => d.path)
          then [(⟨"/x".data, frontTag⟩ : ManagedDirectory)].map (fun d => d.path)
          else [(⟨"/x".data, frontTag⟩ : ManagedDirectory)].map (fun d => d.path)
            ++ ["/x".data])
    ∧ (⟨"/x".data, priorityOfAtFront false⟩ : ManagedDirectory)
        ∈ addDirectory "/x".data false [⟨"/x".data, frontTag⟩] :=
  addDirectory_invariant "/x".data false [⟨"/x".data, frontTag⟩] (by decide)

example : splitSep ':' "a::b".data = ["a".data, [], "b".data] := by decide

example : joinSep ':' ["a".data, "b".data] = "a:b".data := by decide

example :
    getAdjustedPath ':' "/f".data "/b".data [⟨"/c".data, frontTag⟩] "/usr/bin:/f:/bin".data
      = "/f:/c:/usr/bin:/bin:/b".data := by decide

end Pathman
